import Mathlib

/-!
Shallow embedding of the cuboard repository's core:
`src/cube.rs` (move algebra), `src/cuboard.rs` (key parser, move buffer,
keymap input handler) and `src/bluetooth/gancubev2.rs` (bit codec, cipher,
message codec).  Machine integers are modelled as `Nat` with explicit
`% 256`-style wrapping where the source wraps; Rust panics are modelled as
`Option.none`; fallible constructors return `Except`.
-/

set_option maxRecDepth 100000

namespace Cuboard

/-- The 12-move alphabet from `src/cube.rs` (`enum CubeMove`), discriminants
`U=0, Up=1, R=2, Rp=3, F=4, Fp=5, D=6, Dp=7, L=8, Lp=9, B=10, Bp=11`. -/
inductive CubeMove where
  | U | Up | R | Rp | F | Fp | D | Dp | L | Lp | B | Bp
deriving DecidableEq, Repr

namespace CubeMove

/-- `CubeMove as u8` (the `#[repr(u8)]` discriminant). -/
def repr : CubeMove → Nat
  | U => 0 | Up => 1 | R => 2 | Rp => 3 | F => 4 | Fp => 5
  | D => 6 | Dp => 7 | L => 8 | Lp => 9 | B => 10 | Bp => 11

/-- `CubeMove::from_repr` (derived `FromRepr`): inverse of the discriminant. -/
def fromRepr : Nat → Option CubeMove
  | 0 => some U | 1 => some Up | 2 => some R | 3 => some Rp
  | 4 => some F | 5 => some Fp | 6 => some D | 7 => some Dp
  | 8 => some L | 9 => some Lp | 10 => some B | 11 => some Bp
  | _ => none

/-- `from_repr(..).unwrap()` at call sites where the source representation is
always in range (the unwrap cannot fail there). -/
def fromReprD (n : Nat) : CubeMove := (fromRepr n).getD U

/-- `CubeMove::abs`: `from_repr(self as u8 / 2 * 2)`, dropping direction. -/
def abs (m : CubeMove) : CubeMove := fromReprD (m.repr / 2 * 2)

/-- `CubeMove::rev`: flip the direction bit of the discriminant. -/
def rev (m : CubeMove) : CubeMove :=
  fromReprD (m.repr / 2 * 2 + (m.repr % 2 + 1) % 2)

/-- `CubeMove::commute`: `self as u8 / 2 % 3 == other as u8 / 2 % 3`. -/
def commute (a b : CubeMove) : Bool := a.repr / 2 % 3 == b.repr / 2 % 3

end CubeMove

/-- `CuboardKey` from `src/cuboard.rs`: one recognized compound gesture. -/
structure CuboardKey where
  main : CubeMove
  num : Nat
  isShifted : Bool
deriving DecidableEq, Repr

/-- `CuboardKey::KEYS`: per-main-move fixed ordering of the 4 adjacent faces. -/
def KEYS : List (List CubeMove) :=
  [[.L, .B, .R, .F], -- U
   [.L, .B, .R, .F], -- Up
   [.D, .F, .U, .B], -- R
   [.D, .F, .U, .B], -- Rp
   [.U, .R, .D, .L], -- F
   [.U, .R, .D, .L], -- Fp
   [.B, .L, .F, .R], -- D
   [.B, .L, .F, .R], -- Dp
   [.F, .D, .B, .U], -- L
   [.F, .D, .B, .U], -- Lp
   [.R, .U, .L, .D], -- B
   [.R, .U, .L, .D]] -- Bp

/-- `order.iter().position(|a| adj == *a)` against `KEYS[main as u8 as usize]`. -/
def rowIdx (main adj : CubeMove) : Option Nat :=
  (KEYS.getD main.repr []).findIdx? (fun a => adj == a)

/-- The head pattern-match of `CuboardKey::parse`'s loop body: on
`value[start..]`, `[a, a_, b, ..]` with `a == a_ && a != b` is a shifted key
head `(a, b.abs(), true)`; otherwise `[a, b, ..]` with `a != b` is an
unshifted head `(a, b.abs(), false)`; otherwise the parse stops. -/
def parseStep : List CubeMove → Option (CubeMove × CubeMove × Bool)
  | a :: a' :: b :: _ =>
    if a = a' then (if a = b then none else some (a, b.abs, true))
    else some (a, a'.abs, false)
  | [a, a'] => if a = a' then none else some (a, a'.abs, false)
  | _ => none

/-- `CuboardKey::parse` recast structurally: the Rust loop re-examines
`value[start..]` each iteration and advances `start` by 2 or 3; here the
already-dropped slice is the recursion argument and `s` tracks the absolute
start index, so ranges come out identical. -/
def parseFrom : List CubeMove → Nat → List (CuboardKey × Nat × Nat)
  | a :: a' :: b :: rest, s =>
    if a = a' then
      if a = b then []
      else
        match rowIdx a b.abs with
        | none => []
        | some num => (⟨a, num, true⟩, (s, s + 3)) :: parseFrom rest (s + 3)
    else
      match rowIdx a a'.abs with
      | none => []
      | some num => (⟨a, num, false⟩, (s, s + 2)) :: parseFrom (b :: rest) (s + 2)
  | [a, a'], s =>
    if a = a' then []
    else
      match rowIdx a a'.abs with
      | none => []
      | some num => [(⟨a, num, false⟩, (s, s + 2))]
  | _, _ => []

/-- `CuboardKey::parse(value, start)`. -/
def parse (value : List CubeMove) (start : Nat) : List (CuboardKey × Nat × Nat) :=
  parseFrom (value.drop start) start

/-- `CuboardBuffer` from `src/cuboard.rs`: pending moves plus the keys parsed
out of a prefix of them, each key with its index range into `moves`. -/
structure Buffer where
  moves : List CubeMove
  keys : List (CuboardKey × Nat × Nat)
deriving DecidableEq, Repr

namespace Buffer

/-- `CuboardBuffer::new`. -/
def new : Buffer := ⟨[], []⟩

/-- End of the last key's range, `self.keys.last().map_or(0, |k| k.1.end)`. -/
def chunkEnd (keys : List (CuboardKey × Nat × Nat)) : Nat :=
  ((keys.getLast?).map (fun k => k.2.2)).getD 0

/-- `CuboardBuffer::remains`: the unconsumed tail of `moves`. -/
def remains (b : Buffer) : List CubeMove := b.moves.drop (chunkEnd b.keys)

/-- `CuboardBuffer::cancel`. -/
def cancel (_ : Buffer) : Buffer := ⟨[], []⟩

/-- `CuboardBuffer::is_completed`. -/
def isCompleted (b : Buffer) : Bool := chunkEnd b.keys == b.moves.length

/-- `CuboardBuffer::flush`: returns the drained keys and the new buffer state
(the moves consumed by them are dropped). -/
def flush (b : Buffer) : List CuboardKey × Buffer :=
  (b.keys.map (fun k => k.1), ⟨b.moves.drop (chunkEnd b.keys), []⟩)

/-- The `first_and_last` helper inside `CuboardBuffer::input`: first and last
element of an iterator, the same element twice for a singleton. -/
def firstAndLast (l : List Nat) : Option (Nat × Nat) :=
  match l with
  | [] => none
  | x :: xs => some (x, ((x :: xs).getLast?).getD x)

/-- The `collapsed_range` computation of `CuboardBuffer::input`: scan
`moves` from the end while commuting with `mv`, skip entries of a different
face, then take the contiguous same-face run; the resulting index interval
(empty interval `len..len` when no run is found). -/
def collapsedRange (moves : List CubeMove) (mv : CubeMove) : Nat × Nat :=
  let idxs :=
    ((((moves.enum.reverse).takeWhile (fun p => p.2.commute mv)).dropWhile
        (fun p => p.2.abs != mv.abs)).takeWhile
        (fun p => p.2.abs == mv.abs)).map (fun p => p.1)
  match firstAndLast idxs with
  | none => (moves.length, moves.length)
  | some (j, i) => (i, j + 1)

/-- `CuboardBuffer::input`: collapse the nearest same-face run, drop the keys
whose range overlaps it, and re-run the greedy parser; returns whether any
key changed together with the new buffer. -/
def input (b : Buffer) (mv : CubeMove) : Bool × Buffer :=
  let cr := collapsedRange b.moves mv
  let broken := ((b.keys.reverse).takeWhile (fun k => decide (cr.1 < k.2.2))).length
  let subseq := (b.moves.drop cr.1).take (cr.2 - cr.1)
  let rest := b.moves.take cr.1 ++ b.moves.drop cr.2
  let subseq' :=
    if subseq = [] ∨ subseq.getLast? = some mv then subseq ++ [mv]
    else subseq.dropLast
  let moves' := rest ++ subseq'
  let keys1 := b.keys.take (b.keys.length - broken)
  let newKeys := parse moves' (chunkEnd keys1)
  (decide (0 < broken) || decide (newKeys ≠ []), ⟨moves', keys1 ++ newKeys⟩)

end Buffer

/-- The reachable buffer states: those produced from `CuboardBuffer::new` by
any sequence of `input`, `flush` and `cancel`. -/
inductive Reachable : Buffer → Prop where
  | new : Reachable Buffer.new
  | input {b : Buffer} (mv : CubeMove) : Reachable b → Reachable (b.input mv).2
  | flush {b : Buffer} : Reachable b → Reachable b.flush.2
  | cancel {b : Buffer} : Reachable b → Reachable b.cancel

/-! ### Bit codec (`mod util` in `src/bluetooth/gancubev2.rs`) -/

/-- One bit of a big-endian-bit-ordered byte buffer:
`data[bit / 8] & (FIRST_BIT >> (bit % 8)) != 0` with `FIRST_BIT = 1 << 7`. -/
def testBit (data : List Nat) (bit : Nat) : Bool :=
  (data.getD (bit / 8) 0) &&& (128 >>> (bit % 8)) != 0

/-- `Biter::extract(count)` starting at bit `index`: big-endian accumulation
of the next `count` bits. -/
def extractBits (data : List Nat) (index count : Nat) : Nat :=
  (List.range count).foldl
    (fun r k => r * 2 + (if testBit data (index + k) then 1 else 0)) 0

/-- Sequential bit reader, `util::Biter` (`data` plus cursor `index`). -/
structure Biter where
  data : List Nat
  index : Nat

/-- `Biter::extract`: read `count` bits and advance the cursor. -/
def Biter.extract (b : Biter) (count : Nat) : Nat × Biter :=
  (extractBits b.data b.index count, ⟨b.data, b.index + count⟩)

/-- Repeated `extract` with a fixed field width, for the source's
`(0..n).map(|_| biter.extract(w))` loops; returns fields in read order. -/
def Biter.extractList (b : Biter) (width : Nat) : Nat → List Nat × Biter
  | 0 => ([], b)
  | n + 1 =>
    let (v, b') := b.extract width
    let (vs, b'') := b'.extractList width n
    (v :: vs, b'')

/-- Set or clear bit `bit` of the buffer (one iteration of
`BiterMut::assign`'s loop). -/
def setBit (data : List Nat) (bit : Nat) (v : Bool) : List Nat :=
  if v then data.set (bit / 8) ((data.getD (bit / 8) 0) ||| (128 >>> (bit % 8)))
  else data.set (bit / 8) ((data.getD (bit / 8) 0) &&& (255 ^^^ (128 >>> (bit % 8))))

/-- `BiterMut::assign(count, value)` at bit `index`: write the low `count`
bits of `value`, most significant first. -/
def assignBits (data : List Nat) (index count value : Nat) : List Nat :=
  (List.range count).foldl
    (fun d k => setBit d (index + k) (value >>> (count - 1 - k) &&& 1 == 1)) data

/-- Sequential bit writer, `util::BiterMut`. -/
structure BiterMut where
  data : List Nat
  index : Nat

/-- `BiterMut::assign`: write `count` bits and advance the cursor. -/
def BiterMut.assign (b : BiterMut) (count value : Nat) : BiterMut :=
  ⟨assignBits b.data b.index count value, b.index + count⟩

/-! ### Cipher (`mod cipher` in `src/bluetooth/gancubev2.rs`)

The AES-128 single-block primitive comes from the external `aes` crate, so
the block transform is carried abstractly as the `encB`/`decB` fields; the
derived key/IV schedule (`make_cipher`) is translated from the source. -/

/-- Byte-wise XOR of two equal-length byte lists. -/
def xorBytes (a b : List Nat) : List Nat := List.zipWith (fun x y => x ^^^ y) a b

/-- `GanCubeV2Cipher`: derived key and IV plus the (abstract) AES-128
single-block encryption and decryption maps instantiated from the key. -/
structure Cipher where
  key : List Nat
  iv : List Nat
  encB : List Nat → List Nat
  decB : List Nat → List Nat

/-- `encrypt_block`: whiten with the IV, then AES-encrypt in place. -/
def Cipher.encBlock (c : Cipher) (block : List Nat) : List Nat :=
  c.encB (xorBytes block c.iv)

/-- `decrypt_block`: AES-decrypt in place, then un-whiten with the IV. -/
def Cipher.decBlock (c : Cipher) (block : List Nat) : List Nat :=
  xorBytes (c.decB block) c.iv

/-- `GanCubeV2Cipher::encrypt`: transform bytes `[0,16)` first, then bytes
`[len-16, len)` (the two ranges overlap on a 20-byte frame). -/
def Cipher.encrypt (c : Cipher) (value : List Nat) : List Nat :=
  let offset := value.length - 16
  let v1 := c.encBlock (value.take 16) ++ value.drop 16
  v1.take offset ++ c.encBlock (v1.drop offset)

/-- `GanCubeV2Cipher::decrypt`: exact mirror, last block first. -/
def Cipher.decrypt (c : Cipher) (value : List Nat) : List Nat :=
  let offset := value.length - 16
  let v1 := value.take offset ++ c.decBlock (value.drop offset)
  c.decBlock (v1.take 16) ++ v1.drop 16

/-- `DeviceError` from `src/bluetooth/gancubev2.rs`. -/
inductive DeviceError where
  | invalidCharacteristics
  | noDeviceIdentifier
  | invalidDeviceIdentifier
deriving DecidableEq, Repr

/-- The fixed 16-byte `key` base secret of `make_cipher`. -/
def baseKey : List Nat :=
  [0x01, 0x02, 0x42, 0x28, 0x31, 0x91, 0x16, 0x07,
   0x20, 0x05, 0x18, 0x54, 0x42, 0x11, 0x12, 0x53]

/-- The fixed 16-byte `iv` base secret of `make_cipher`. -/
def baseIv : List Nat :=
  [0x11, 0x03, 0x32, 0x28, 0x21, 0x01, 0x76, 0x27,
   0x20, 0x95, 0x78, 0x14, 0x32, 0x12, 0x02, 0x43]

/-- `add_device_key`: `secret.iter_mut().zip(device_key)` adds byte-wise
modulo 255, touching only the first `device_key.len()` bytes. -/
def addDeviceKey (secret deviceKey : List Nat) : List Nat :=
  List.zipWith (fun a b => (a + b) % 255) secret deviceKey ++
    secret.drop deviceKey.length

/-- `GanCubeV2Cipher::make_cipher`, restricted to its data content: the input
is the manufacturer-data entry at id 1 (`device_props.manufacturer_data.get(&1)`),
the output the derived `(key, iv)` pair.  The `Aes128::new(&key)` primitive
instantiation is external-crate code and is not part of the schedule. -/
def makeCipher (manufacturerData : Option (List Nat)) :
    Except DeviceError (List Nat × List Nat) :=
  match manufacturerData with
  | none => .error .noDeviceIdentifier
  | some deviceId =>
    if deviceId.length = 9 then
      let deviceKey := (deviceId.drop 3).take 6
      .ok (addDeviceKey baseKey deviceKey, addDeviceKey baseIv deviceKey)
    else .error .invalidDeviceIdentifier

/-! ### Message codec (`mod codec` in `src/bluetooth/gancubev2.rs`)

The piece enumerations of `src/cube.rs` are represented by their `u8`
discriminants: `CornerPosition::from_repr` accepts `[0,8)`,
`CornerOrientation::from_repr` accepts `[0,3)`, `EdgePosition::from_repr`
accepts `[0,12)` and `EdgeOrientation::from_repr` accepts `[0,2)`. -/

/-- `Corner::try_from((u8, u8))`: position then orientation, each through its
enum's `from_repr` range check. -/
def cornerFromRepr (v : Nat × Nat) : Option (Nat × Nat) :=
  if v.1 < 8 ∧ v.2 < 3 then some v else none

/-- `Edge::try_from((u8, u8))`. -/
def edgeFromRepr (v : Nat × Nat) : Option (Nat × Nat) :=
  if v.1 < 12 ∧ v.2 < 2 then some v else none

/-- `CubeState` (by discriminants): 8 corners and 12 edges, each a
(position, orientation) pair. -/
structure CubeState where
  corners : List (Nat × Nat)
  edges : List (Nat × Nat)
deriving DecidableEq, Repr

/-- `MessageParseError`: the typed decode failures. -/
inductive MessageParseError where
  | badMessageLength (len : Nat)
  | unrecognizedMessage (data : List Nat)
deriving DecidableEq, Repr

/-- `ResponseMessageType` and its `TryFrom<u8>` (the 4-bit type tag). -/
inductive ResponseMessageType where
  | gyroscope | cubeMoves | cubeState | batteryState | disconnect
deriving DecidableEq, Repr

/-- `ResponseMessageType::try_from`. -/
def tagFromRepr : Nat → Option ResponseMessageType
  | 0b0001 => some .gyroscope
  | 0b0010 => some .cubeMoves
  | 0b0100 => some .cubeState
  | 0b1001 => some .batteryState
  | 0b1101 => some .disconnect
  | _ => none

/-- `ResponseMessage`.  The gyroscope variant carries the raw extracted
fields (four 16-bit and three 4-bit integers per reading); the source's
`from_signed_u15`/`from_signed_u3` fixed-point-to-`f32` conversions are
floating point and are not modelled. -/
inductive ResponseMessage where
  | gyroscope (raw1 raw2 : List Nat)
  | moves (count : Nat) (moves : List (Option CubeMove)) (times : List Nat)
  | state (count : Nat) (state : CubeState)
  | battery (charging : Bool) (percentage : Nat)
  | disconnect
deriving DecidableEq, Repr

/-- Result of `ResponseMessage::decode`: a typed error, a Rust panic
(an `unwrap` failure inside decoding), or a message. -/
inductive DecodeResult where
  | err (e : MessageParseError)
  | panic
  | ok (m : ResponseMessage)
deriving DecidableEq, Repr

/-- `ResponseMessage::decode_gyroscope` (raw integer fields only; the trailer
check at the end is logged, never fatal, and does not affect the value). -/
def decodeGyroscope (b : Biter) : ResponseMessage :=
  let (raw1, b1) :=
    let (scalar, b') := b.extract 16
    let (red, b') := b'.extract 16
    let (blue, b') := b'.extract 16
    let (white, b') := b'.extract 16
    let (redp, b') := b'.extract 4
    let (bluep, b') := b'.extract 4
    let (whitep, b') := b'.extract 4
    ([scalar, red, blue, white, redp, bluep, whitep], b')
  let (raw2, _) :=
    let (scalar, b') := b1.extract 16
    let (red, b') := b'.extract 16
    let (blue, b') := b'.extract 16
    let (white, b') := b'.extract 16
    let (redp, b') := b'.extract 4
    let (bluep, b') := b'.extract 4
    let (whitep, b') := b'.extract 4
    ([scalar, red, blue, white, redp, bluep, whitep], b')
  .gyroscope raw1 raw2

/-- `ResponseMessage::decode_cube_moves`. -/
def decodeCubeMoves (b : Biter) : ResponseMessage :=
  let (count, b1) := b.extract 8
  let (mvs, b2) := b1.extractList 5 7
  let (times, _) := b2.extractList 16 7
  .moves count (mvs.map (fun v => CubeMove.fromRepr v)) times

/-- `ResponseMessage::decode_cube_state`.  Each source `unwrap` becomes an
`Option` bind (`none` = panic).  NOTE two faithful translations of source
slips: the loop reading the 11 one-bit edge-orientation fields writes into
`edges_position` (not `edges_orientation`), so the final edge positions are
those bits plus the reconstructed 12th slot, and `edges_orientation` keeps
its initial zeros (its 12th slot is computed from those zeros). -/
def decodeCubeState (b : Biter) : Option ResponseMessage :=
  let (count, b1) := b.extract 8
  let (cp7, b2) := b1.extractList 3 7
  match (List.range 8).find? (fun a => ¬ cp7.contains a) with
  | none => none
  | some cp8 =>
    let cornersPos := cp7 ++ [cp8]
    let (co7, b3) := b2.extractList 2 7
    let cornersOri := co7 ++ [(3 - co7.sum % 3) % 3]
    let (ep11, _b4) := b3.extractList 4 11
    match (List.range 12).find? (fun a => ¬ ep11.contains a) with
    | none => none
    | some ep12 =>
      let (eo11, _) := _b4.extractList 1 11
      let edgesPos := eo11 ++ [ep12]
      let edgesOriInit : List Nat := List.replicate 11 0
      let edgesOri := edgesOriInit ++ [(2 - edgesOriInit.sum % 2) % 2]
      match (cornersPos.zip cornersOri).mapM cornerFromRepr with
      | none => none
      | some corners =>
        match (edgesPos.zip edgesOri).mapM edgeFromRepr with
        | none => none
        | some edges => some (.state count ⟨corners, edges⟩)

/-- `ResponseMessage::decode_battery_state`. -/
def decodeBattery (b : Biter) : ResponseMessage :=
  let (charging, b1) := b.extract 4
  let (percentage, _) := b1.extract 8
  .battery (charging != 0) percentage

/-- `ResponseMessage::decode`: length check, decrypt, 4-bit tag dispatch. -/
def decode (data : List Nat) (cipher : Cipher) : DecodeResult :=
  if data.length = 20 then
    let d := cipher.decrypt data
    let b0 : Biter := ⟨d, 0⟩
    let (tag, b1) := b0.extract 4
    match tagFromRepr tag with
    | none => .err (.unrecognizedMessage d)
    | some t =>
      match t with
      | .gyroscope => .ok (decodeGyroscope b1)
      | .cubeMoves => .ok (decodeCubeMoves b1)
      | .cubeState =>
        match decodeCubeState b1 with
        | some m => .ok m
        | none => .panic
      | .batteryState => .ok (decodeBattery b1)
      | .disconnect => .ok .disconnect
  else .err (.badMessageLength data.length)

/-! ### Keymap input (`CuboardInput` in `src/cuboard.rs`)

`CuboardInput` owns a buffer, a keymap and the message handler state.  The
handler's `GyroGestureRecognizer` works on `f32` quaternion windows; its
output for the current sample is abstracted as an oracle argument to
`handleMessage` (it is consulted only on gyroscope messages once
initialized), everything else is translated from the source.  Rust `String`
and `&str` values are modelled as `List Char` (their character content). -/

/-- `CuboardKeymap = [[[&str; 4]; 12]; 2]`. -/
abbrev Keymap := List (List (List (List Char)))

/-- `GyroGesture`. -/
inductive GyroGesture where
  | turningAround
  | shaking
deriving DecidableEq, Repr

/-- `CuboardInputEvent`. -/
inductive CuboardInputEvent where
  | uninit
  | init
  | cancel
  | finish (accept : List Char)
  | input (accept : List Char) (skip : Nat)
deriving DecidableEq, Repr

/-- `CuboardInput` state: buffer, keymap, and the handler's move counter
(`None` until the first State message). -/
structure InputState where
  buffer : Buffer
  keymap : Keymap
  count : Option Nat
deriving DecidableEq, Repr

/-- `CuboardInput::new`. -/
def InputState.new (keymap : Keymap) : InputState := ⟨Buffer.new, keymap, none⟩

/-- `CuboardInput::buffered_text`: map each parsed key through
`keymap[is_shifted][main][num]` and concatenate. -/
def InputState.bufferedText (s : InputState) : List Char :=
  (s.buffer.keys.map (fun k =>
    ((s.keymap.getD (if k.1.isShifted then 1 else 0) []).getD k.1.main.repr []).getD
      k.1.num [])).flatten

/-- `CuboardInput::finish`: return the buffered text and cancel the buffer. -/
def InputState.finishInput (s : InputState) : List Char × InputState :=
  (s.bufferedText, { s with buffer := s.buffer.cancel })

/-- `CuboardInput::input`: feed each move into the buffer; whenever the
buffered text contains a newline, flush it via `finish` into the result. -/
def InputState.inputMoves (s : InputState) (mvs : List CubeMove) :
    List Char × InputState :=
  mvs.foldl
    (fun acc mv =>
      let s1 := { acc.2 with buffer := (acc.2.buffer.input mv).2 }
      if s1.bufferedText.contains '\n' then
        let (t, s2) := s1.finishInput
        (acc.1 ++ t, s2)
      else (acc.1, s1))
    ([], s)

/-- `CuboardInput::handle_message`.  `gesture` is the recognizer's output for
this sample (floating-point gesture classification, abstracted). -/
def InputState.handleMessage (s : InputState) (msg : ResponseMessage)
    (gesture : Option GyroGesture) : Option CuboardInputEvent × InputState :=
  match s.count with
  | none =>
    -- ignore messages until the current count is known
    match msg with
    | .state c _ => (some .init, { s with count := some c })
    | _ => (some .uninit, s)
  | some prevCount =>
    match msg with
    | .gyroscope _ _ =>
      match gesture with
      | some .turningAround =>
        let (t, s') := s.finishInput
        (some (.finish t), s')
      | some .shaking => (some .cancel, { s with buffer := s.buffer.cancel })
      | none => (none, s)
    | .moves c mvs _times =>
      let s1 := { s with count := some c }
      let diff := (256 + c - prevCount) % 256
      let taken := (mvs.take (min diff 7)).reverse
      let acceptMoves := taken.filterMap id
      let skip := (7 - diff) + taken.countP (fun o => o.isNone)
      let (accept, s2) := s1.inputMoves acceptMoves
      (some (.input accept skip), s2)
    | _ => (none, s)

/-! ### Concrete fixtures -/

/-- A cipher whose abstract AES block maps are the identity and whose IV is
all zeros; `decrypt` composed with it is byte-for-byte transparent, which
lets concrete frames exercise the decoder directly. -/
def idCipher : Cipher := ⟨List.replicate 16 0, List.replicate 16 0, id, id⟩

/-- A well-formed State frame built with the source's own bit writer:
tag `0100`, count 0, transmitted corner positions `0..6` (a 7-subset of
`[0,8)`), corner orientations all 0, transmitted edge positions `0..10`
(an 11-subset of `[0,12)`), edge orientation bits all 0, everything else 0. -/
def stateFrameA : List Nat :=
  let b : BiterMut := ⟨List.replicate 20 0, 0⟩
  let b := b.assign 4 0b0100
  let b := b.assign 8 0
  let b := [0, 1, 2, 3, 4, 5, 6].foldl (fun b v => BiterMut.assign b 3 v) b
  let b := (List.replicate 7 0).foldl (fun b v => BiterMut.assign b 2 v) b
  let b := [0, 1, 2, 3, 4, 5, 6, 7, 8, 9, 10].foldl (fun b v => BiterMut.assign b 4 v) b
  let b := (List.replicate 11 0).foldl (fun b v => BiterMut.assign b 1 v) b
  b.data

/-- A well-tagged State frame whose first transmitted corner-orientation
field is `0b11` (tag nibble `0100`, every following payload bit set). -/
def stateFrameB : List Nat := 0x40 :: List.replicate 19 0xFF

/-! ### Request encoding (`RequestMessage::encode`) -/

/-- `RequestMessage`. -/
inductive RequestMessage where
  | requestCubeState
  | requestBatteryState
  | resetCubeState (state : CubeState)

/-- The pre-encryption 20-byte buffer assembled by `RequestMessage::encode`:
8-bit opcode, then for the reset variant all 8 corner positions (3 bits) and
orientations (2 bits) and all 12 edge positions (4 bits) and orientations
(1 bit); zero padding elsewhere. -/
def RequestMessage.encodePlain (msg : RequestMessage) : List Nat :=
  let b : BiterMut := ⟨List.replicate 20 0, 0⟩
  match msg with
  | .requestCubeState => (b.assign 8 0b0100).data
  | .requestBatteryState => (b.assign 8 0b1001).data
  | .resetCubeState st =>
    let b := b.assign 8 0b1010
    let b := st.corners.foldl (fun b c => b.assign 3 c.1) b
    let b := st.corners.foldl (fun b c => b.assign 2 c.2) b
    let b := st.edges.foldl (fun b e => b.assign 4 e.1) b
    let b := st.edges.foldl (fun b e => b.assign 1 e.2) b
    b.data

/-- `RequestMessage::encode`: assemble the plaintext, then encrypt. -/
def RequestMessage.encode (msg : RequestMessage) (c : Cipher) : List Nat :=
  c.encrypt msg.encodePlain

/-! ### Helper lemmas -/

theorem exists_cons_of_length_succ {α : Type} {l : List α} {n : Nat}
    (h : l.length = n + 1) : ∃ a t, l = a :: t ∧ t.length = n := by
  cases l with
  | nil => simp at h
  | cons a t => exact ⟨a, t, rfl, by simpa using h⟩

theorem eq_explicit_of_length_nine {d : List Nat} (h : d.length = 9) :
    ∃ a0 a1 a2 a3 a4 a5 a6 a7 a8,
      d = [a0, a1, a2, a3, a4, a5, a6, a7, a8] := by
  obtain ⟨a0, t0, rfl, h0⟩ := exists_cons_of_length_succ h
  obtain ⟨a1, t1, rfl, h1⟩ := exists_cons_of_length_succ h0
  obtain ⟨a2, t2, rfl, h2⟩ := exists_cons_of_length_succ h1
  obtain ⟨a3, t3, rfl, h3⟩ := exists_cons_of_length_succ h2
  obtain ⟨a4, t4, rfl, h4⟩ := exists_cons_of_length_succ h3
  obtain ⟨a5, t5, rfl, h5⟩ := exists_cons_of_length_succ h4
  obtain ⟨a6, t6, rfl, h6⟩ := exists_cons_of_length_succ h5
  obtain ⟨a7, t7, rfl, h7⟩ := exists_cons_of_length_succ h6
  obtain ⟨a8, t8, rfl, h8⟩ := exists_cons_of_length_succ h7
  rw [List.length_eq_zero] at h8
  exact ⟨a0, a1, a2, a3, a4, a5, a6, a7, a8, by rw [h8]⟩

/-! ### Claims -/

/-- **C5.** `make_cipher` fails with a device-identifier error iff the
manufacturer-data entry is absent or not exactly 9 bytes; otherwise the
derived key and IV are the base secrets with each of the first 6 bytes `i`
replaced by `(base[i] + device_id[3+i]) % 255` and bytes `6..16` unchanged. -/
theorem makeCipher_spec (md : Option (List Nat)) :
    ((makeCipher md = .error .noDeviceIdentifier ∨
        makeCipher md = .error .invalidDeviceIdentifier) ↔
      (md = none ∨ ∃ d, md = some d ∧ d.length ≠ 9)) ∧
    (∀ d, md = some d → d.length = 9 →
      makeCipher md = .ok
        ((List.range 16).map (fun i =>
            if i < 6 then (baseKey.getD i 0 + d.getD (3 + i) 0) % 255
            else baseKey.getD i 0),
         (List.range 16).map (fun i =>
            if i < 6 then (baseIv.getD i 0 + d.getD (3 + i) 0) % 255
            else baseIv.getD i 0))) := by
  constructor
  · cases md with
    | none => simp [makeCipher]
    | some d =>
      by_cases h : d.length = 9 <;> simp [makeCipher, h]
  · rintro d rfl h
    obtain ⟨a0, a1, a2, a3, a4, a5, a6, a7, a8, rfl⟩ := eq_explicit_of_length_nine h
    rfl

/-- Witness for C5 at a concrete 9-byte manufacturer identifier. -/
theorem makeCipher_spec_witness :
    makeCipher (some [0, 0, 0, 1, 2, 3, 4, 5, 6]) =
      .ok ([0x02, 0x04, 0x45, 0x2C, 0x36, 0x97, 0x16, 0x07,
            0x20, 0x05, 0x18, 0x54, 0x42, 0x11, 0x12, 0x53],
           [0x12, 0x05, 0x35, 0x2C, 0x26, 0x07, 0x76, 0x27,
            0x20, 0x95, 0x78, 0x14, 0x32, 0x12, 0x02, 0x43]) := by
  have h := (makeCipher_spec (some [0, 0, 0, 1, 2, 3, 4, 5, 6])).2
    [0, 0, 0, 1, 2, 3, 4, 5, 6] rfl (by decide)
  rw [h]; rfl

/-- **C10.** While the stored counter is uninitialized, `handle_message`
answers `Uninit` to every non-State message and changes nothing; the first
State message stores its count and answers `Init` (so no move reaches the
buffer before a State message has been handled). -/
theorem handleMessage_uninit (s : InputState) (msg : ResponseMessage)
    (g : Option GyroGesture) (h : s.count = none) :
    (∀ c st, msg = .state c st →
        s.handleMessage msg g = (some .init, { s with count := some c })) ∧
    ((∀ c st, msg ≠ .state c st) →
        s.handleMessage msg g = (some .uninit, s)) := by
  constructor
  · rintro c st rfl
    simp [InputState.handleMessage, h]
  · intro hne
    cases msg with
    | state c st => exact absurd rfl (hne c st)
    | gyroscope r1 r2 => simp [InputState.handleMessage, h]
    | moves c mvs t => simp [InputState.handleMessage, h]
    | battery ch p => simp [InputState.handleMessage, h]
    | disconnect => simp [InputState.handleMessage, h]

/-- Witness for C10: a fresh input state answers `Uninit` to a battery
message (unchanged state) and `Init` to a State message. -/
theorem handleMessage_uninit_witness :
    (InputState.new []).handleMessage (.battery false 50) none =
        (some .uninit, InputState.new []) ∧
    (InputState.new []).handleMessage (.state 17 ⟨[], []⟩) none =
        (some .init, { InputState.new [] with count := some 17 }) := by
  refine ⟨?_, ?_⟩
  · exact (handleMessage_uninit (InputState.new []) (.battery false 50) none rfl).2
      (by intro c st hcontra; cases hcontra)
  · exact (handleMessage_uninit (InputState.new []) (.state 17 ⟨[], []⟩) none rfl).1
      17 ⟨[], []⟩ rfl

/-- **C7.** On a Moves message, an initialized handler replays the newest
`min(diff, 7)` reported slots into the buffer oldest-first (skipping unknown
codes), where `diff` is the 8-bit wrapping difference of the new counter
minus the stored one; in particular for stored counter 250 and new counter 3
the difference is 9 and all 7 slots are replayed. -/
theorem handleMessage_moves_wrap (s : InputState) (prev c : Nat)
    (mvs : List (Option CubeMove)) (times : List Nat) (g : Option GyroGesture)
    (h : s.count = some prev) :
    (s.handleMessage (.moves c mvs times) g).2 =
      ({ s with count := some c }.inputMoves
        (((mvs.take (min ((256 + c - prev) % 256) 7)).reverse).filterMap id)).2 ∧
    (prev = 250 → c = 3 →
      (256 + c - prev) % 256 = 9 ∧
      (s.handleMessage (.moves c mvs times) g).2 =
        ({ s with count := some c }.inputMoves
          (((mvs.take 7).reverse).filterMap id)).2) := by
  constructor
  · simp [InputState.handleMessage, h]
  · rintro rfl rfl
    refine ⟨by norm_num, ?_⟩
    simp [InputState.handleMessage, h]

/-- Witness for C7: counter 250 → 3 replays all seven slots, oldest first,
dropping the unknown slot. -/
theorem handleMessage_moves_wrap_witness :
    ({ buffer := Buffer.new, keymap := [], count := some 250 } :
        InputState).handleMessage
      (.moves 3 [some .U, some .L, none, some .R, some .R, some .F, some .B]
        [0, 0, 0, 0, 0, 0, 0]) none =
      (some (.input [] 1),
        { buffer := ⟨[.B, .F, .R, .R, .L, .U], []⟩, keymap := [], count := some 3 }) := by
  have h := (handleMessage_moves_wrap
    { buffer := Buffer.new, keymap := [], count := some 250 } 250 3
    [some .U, some .L, none, some .R, some .R, some .F, some .B]
    [0, 0, 0, 0, 0, 0, 0] none rfl).2 rfl rfl
  have h9 : (256 + 3 - 250) % 256 = 9 := h.1
  refine Prod.ext ?_ (h.2.trans (by decide))
  decide

/-- **C8.** From an empty buffer, `input R; input R; input R'` leaves exactly
`[R]` in `moves`: the doubled `R` collapses with the opposite turn `R'`. -/
theorem input_double_then_reverse_cancels :
    ((((Buffer.new.input .R).2.input .R).2.input .Rp).2).moves = [.R] := by
  decide

/-- Helper for C6: when the head pattern of `CuboardKey::parse` matches but
the adjacent face is not in the main face's `KEYS` row, the parse loop
returns the keys collected so far (the recursion contributes nothing). -/
theorem parseFrom_stops_on_unknown_adjacent (l : List CubeMove) (s : Nat)
    (main adj : CubeMove) (sh : Bool)
    (hstep : parseStep l = some (main, adj, sh)) (hrow : rowIdx main adj = none) :
    parseFrom l s = [] := by
  match l with
  | [] => simp [parseStep] at hstep
  | [a] => simp [parseStep] at hstep
  | [a, a'] =>
    by_cases haa : a = a'
    · simp [parseStep, haa] at hstep
    · simp only [parseStep, if_neg haa, Option.some.injEq, Prod.mk.injEq] at hstep
      obtain ⟨rfl, rfl, rfl⟩ := hstep
      simp [parseFrom, haa, hrow]
  | a :: a' :: b :: rest =>
    by_cases haa : a = a'
    · subst haa
      by_cases hab : a = b
      · subst hab
        simp [parseStep] at hstep
      · simp only [parseStep, if_pos rfl, if_neg hab, Option.some.injEq,
          Prod.mk.injEq] at hstep
        obtain ⟨rfl, rfl, rfl⟩ := hstep
        simp [parseFrom, hab, hrow]
    · simp only [parseStep, if_neg haa, Option.some.injEq, Prod.mk.injEq] at hstep
      obtain ⟨rfl, rfl, rfl⟩ := hstep
      simp [parseFrom, haa, hrow]

/-- **C6.** `CuboardKey::parse` is greedy with no backtracking: `[U, L]`
parses to exactly the unshifted key `(main=U, num=0)` spanning moves `0..2`;
`[U, U, B]` parses to exactly one shifted key spanning 3 moves with `num=1`
(`B`'s position in `U`'s adjacency order `[L,B,R,F]`); and whenever the
adjacent face is not found in the main face's order table, parsing stops and
returns the keys collected so far. -/
theorem parse_greedy_examples :
    parse [.U, .L] 0 = [(⟨.U, 0, false⟩, (0, 2))] ∧
    parse [.U, .U, .B] 0 = [(⟨.U, 1, true⟩, (0, 3))] ∧
    (∀ (value : List CubeMove) (start : Nat) (main adj : CubeMove) (sh : Bool),
      parseStep (value.drop start) = some (main, adj, sh) →
      rowIdx main adj = none → parse value start = []) := by
  refine ⟨by decide, by decide, ?_⟩
  intro value start main adj sh hstep hrow
  exact parseFrom_stops_on_unknown_adjacent _ start main adj sh hstep hrow

/-- Witness for C6's stop clause at a concrete input: `[U, D]` matches the
unshifted head pattern but `D` is not adjacent to `U`, so nothing parses. -/
theorem parse_greedy_examples_witness :
    parse [CubeMove.U, CubeMove.D] 0 = [] :=
  parse_greedy_examples.2.2 [.U, .D] 0 .U .D false (by decide) (by decide)

/-- The cube state decoded from `stateFrameA` (see the C1 theorem). -/
def stateA : CubeState :=
  ⟨[(0, 0), (1, 0), (2, 0), (3, 0), (4, 0), (5, 0), (6, 0), (7, 0)],
   [(0, 0), (0, 0), (0, 0), (0, 0), (0, 0), (0, 0), (0, 0), (0, 0), (0, 0),
    (0, 0), (0, 0), (11, 0)]⟩

/-- **C1** (failing): `stateFrameA` transmits the 7 corner positions `0..6`
(a 7-subset of `[0,8)`) and the 11 edge positions `0..10` (an 11-subset of
`[0,12)`), yet the decoded edge positions are the 11 zero orientation bits
plus the reconstructed `11` — not a permutation of `[0,12)`, because
`decode_cube_state` writes the one-bit edge-orientation fields into
`edges_position`.  The corner half of the invariant does hold here. -/
theorem decode_state_breaks_edge_permutation :
    (Biter.extractList ⟨idCipher.decrypt stateFrameA, 12⟩ 3 7).1 =
      [0, 1, 2, 3, 4, 5, 6] ∧
    (Biter.extractList ⟨idCipher.decrypt stateFrameA, 47⟩ 4 11).1 =
      [0, 1, 2, 3, 4, 5, 6, 7, 8, 9, 10] ∧
    decode stateFrameA idCipher = .ok (.state 0 stateA) ∧
    (stateA.corners.map Prod.fst).Perm (List.range 8) ∧
    (stateA.corners.map Prod.snd).sum % 3 = 0 ∧
    stateA.edges.map Prod.fst = [0, 0, 0, 0, 0, 0, 0, 0, 0, 0, 0, 11] ∧
    ¬ (stateA.edges.map Prod.fst).Perm (List.range 12) := by
  refine ⟨by rfl, by rfl, by rfl, by decide, by rfl, by rfl, ?_⟩
  intro h
  have hc := h.count_eq 0
  have h11 : (stateA.edges.map Prod.fst).count 0 = 11 := by rfl
  have h1 : (List.range 12).count 0 = 1 := by rfl
  rw [h11, h1] at hc
  exact absurd hc (by norm_num)

/-- **C2** (failing): decoding the well-tagged State frame `stateFrameB`
panics — its transmitted corner-orientation fields are all `0b11`, and
`decode_cube_state` unwraps `Corner::try_from`, whose
`CornerOrientation::from_repr(3)` is `None`.  Wrong-length and bad-tag
inputs do produce the typed errors. -/
theorem decode_panics_on_corner_orientation_three :
    tagFromRepr (extractBits (idCipher.decrypt stateFrameB) 0 4) =
      some .cubeState ∧
    (Biter.extractList ⟨idCipher.decrypt stateFrameB, 33⟩ 2 7).1 =
      [3, 3, 3, 3, 3, 3, 3] ∧
    decode stateFrameB idCipher = .panic ∧
    decode (List.replicate 19 0) idCipher = .err (.badMessageLength 19) ∧
    decode (0xF0 :: List.replicate 19 0) idCipher =
      .err (.unrecognizedMessage (0xF0 :: List.replicate 19 0)) :=
  ⟨by rfl, by rfl, by rfl, by rfl, by rfl⟩

theorem length_setBit (d : List Nat) (bit : Nat) (v : Bool) :
    (setBit d bit v).length = d.length := by
  cases v <;> simp [setBit]

theorem length_assignBits (d : List Nat) (i n v : Nat) :
    (assignBits d i n v).length = d.length := by
  unfold assignBits
  generalize List.range n = ks
  induction ks generalizing d with
  | nil => rfl
  | cons k ks ih => rw [List.foldl_cons, ih, length_setBit]

theorem length_foldl_assign {α : Type} (l : List α) (w : Nat) (g : α → Nat)
    (b : BiterMut) :
    (l.foldl (fun b x => b.assign w (g x)) b).data.length = b.data.length := by
  induction l generalizing b with
  | nil => rfl
  | cons x xs ih => rw [List.foldl_cons, ih]; exact length_assignBits ..

theorem length_assign_data (b : BiterMut) (w v : Nat) :
    (b.assign w v).data.length = b.data.length :=
  length_assignBits ..

theorem length_encodePlain (msg : RequestMessage) :
    msg.encodePlain.length = 20 := by
  cases msg with
  | requestCubeState => rfl
  | requestBatteryState => rfl
  | resetCubeState st =>
    simp only [RequestMessage.encodePlain, length_foldl_assign,
      length_assign_data, List.length_replicate]

theorem length_xorBytes (a b : List Nat) :
    (xorBytes a b).length = min a.length b.length := by
  simp [xorBytes]

theorem xorBytes_xorBytes_cancel (b iv : List Nat) (h : b.length ≤ iv.length) :
    xorBytes (xorBytes b iv) iv = b := by
  induction b generalizing iv with
  | nil => simp [xorBytes]
  | cons x xs ih =>
    cases iv with
    | nil => simp at h
    | cons y ys =>
      simp only [xorBytes, List.zipWith_cons_cons, List.cons.injEq]
      exact ⟨Nat.xor_cancel_right y x, ih ys (by simpa using h)⟩

/-- **C4.** For any cipher whose 16-byte block primitive is inverted by its
decryption map (the AES-128 contract from the external `aes` crate) and
whose IV is 16 bytes (as every derived cipher's is), `decrypt ∘ encrypt` is
the identity on 20-byte frames — the reversed block order of `decrypt`
undoes the overlapping-block `encrypt` bit-for-bit — and consequently
decrypting any encoded request recovers its pre-encryption plaintext. -/
theorem cipher_roundtrip (c : Cipher) (hiv : c.iv.length = 16)
    (hlen : ∀ b : List Nat, b.length = 16 → (c.encB b).length = 16)
    (hinv : ∀ b : List Nat, b.length = 16 → c.decB (c.encB b) = b) :
    (∀ frame : List Nat, frame.length = 20 →
      c.decrypt (c.encrypt frame) = frame) ∧
    (∀ msg : RequestMessage, c.decrypt (msg.encode c) = msg.encodePlain) := by
  have hxor_len : ∀ b : List Nat, b.length = 16 → (xorBytes b c.iv).length = 16 := by
    intro b hb; rw [length_xorBytes, hb, hiv]; omega
  have hencB_len : ∀ b : List Nat, b.length = 16 → (c.encBlock b).length = 16 := by
    intro b hb; exact hlen _ (hxor_len b hb)
  have hdec_enc : ∀ b : List Nat, b.length = 16 → c.decBlock (c.encBlock b) = b := by
    intro b hb
    unfold Cipher.decBlock Cipher.encBlock
    rw [hinv _ (hxor_len b hb)]
    exact xorBytes_xorBytes_cancel b c.iv (by omega)
  have hdecrypt : ∀ p q : List Nat, p.length = 4 → q.length = 16 →
      c.decrypt (p ++ q) =
        c.decBlock ((p ++ c.decBlock q).take 16) ++ (p ++ c.decBlock q).drop 16 := by
    intro p q hp hq
    simp only [Cipher.decrypt, List.length_append, hp, hq]
    norm_num
    rw [← hp, List.take_left, List.drop_left]
  have main : ∀ frame : List Nat, frame.length = 20 →
      c.decrypt (c.encrypt frame) = frame := by
    intro f hf
    have hE1 : (c.encBlock (f.take 16)).length = 16 :=
      hencB_len _ (by rw [List.length_take]; omega)
    have henc : c.encrypt f =
        (c.encBlock (f.take 16)).take 4 ++
          c.encBlock ((c.encBlock (f.take 16)).drop 4 ++ f.drop 16) := by
      simp only [Cipher.encrypt, hf]
      norm_num
      rw [List.take_append_of_le_length (by omega),
        List.drop_append_of_le_length (by omega)]
    have harg : ((c.encBlock (f.take 16)).drop 4 ++ f.drop 16).length = 16 := by
      rw [List.length_append, List.length_drop, List.length_drop, hE1]; omega
    rw [henc, hdecrypt _ _ (by rw [List.length_take, hE1]; omega) (hencB_len _ harg),
      hdec_enc _ harg, ← List.append_assoc, List.take_append_drop,
      List.take_append_of_le_length (by omega),
      List.take_of_length_le (by omega),
      List.drop_append_of_le_length (by omega),
      List.drop_eq_nil_of_le (by omega), List.nil_append,
      hdec_enc _ (by rw [List.length_take]; omega), List.take_append_drop]
  exact ⟨main, fun msg => main _ (length_encodePlain msg)⟩

/-- Witness for C4 at the identity-block cipher, a concrete frame and a
concrete request message. -/
theorem cipher_roundtrip_witness :
    idCipher.decrypt (idCipher.encrypt (List.replicate 20 7)) =
        List.replicate 20 7 ∧
    idCipher.decrypt (RequestMessage.requestCubeState.encode idCipher) =
        RequestMessage.requestCubeState.encodePlain := by
  have h := cipher_roundtrip idCipher (by rfl)
    (fun b hb => hb) (fun b hb => rfl)
  exact ⟨h.1 (List.replicate 20 7) (by rfl), h.2 .requestCubeState⟩

/-! ### C3: where `input` collapses, and where it merely appends -/

/-- The commuting suffix scanned by `CuboardBuffer::input`: the maximal
suffix of `moves` (read back-to-front) all of whose moves commute with
`mv`. -/
def commutingSuffix (moves : List CubeMove) (mv : CubeMove) : List CubeMove :=
  (moves.reverse).takeWhile (fun a => a.commute mv)

theorem dropWhile_eq_drop_length_takeWhile {α : Type} (p : α → Bool)
    (l : List α) : l.dropWhile p = l.drop (l.takeWhile p).length := by
  induction l with
  | nil => rfl
  | cons x xs ih =>
    by_cases h : p x <;>
      simp [List.dropWhile_cons, List.takeWhile_cons, h, ih]

theorem head_dropWhile_not {α : Type} (p : α → Bool) (l : List α) (x : α)
    (xs : List α) (h : l.dropWhile p = x :: xs) : p x = false := by
  induction l with
  | nil => simp at h
  | cons y ys ih =>
    by_cases hy : p y
    · rw [List.dropWhile_cons_of_pos hy] at h; exact ih h
    · rw [List.dropWhile_cons_of_neg hy] at h; cases h; simpa using hy

/-- The enum-level commuting scan projects to `commutingSuffix`. -/
theorem commutingScan_map_snd (moves : List CubeMove) (mv : CubeMove) :
    ((moves.enum.reverse).takeWhile (fun p => p.2.commute mv)).map Prod.snd =
      commutingSuffix moves mv :=
  calc ((moves.enum.reverse).takeWhile (fun p => p.2.commute mv)).map Prod.snd
      = ((moves.enum.reverse).takeWhile
          ((fun a => a.commute mv) ∘ Prod.snd)).map Prod.snd := rfl
    _ = (moves.enum.reverse.map Prod.snd).takeWhile (fun a => a.commute mv) :=
        (List.takeWhile_map _ _ _).symm
    _ = ((moves.enum.map Prod.snd).reverse).takeWhile (fun a => a.commute mv) := by
        rw [List.map_reverse]
    _ = commutingSuffix moves mv := by rw [List.enum_map_snd]; rfl

/-- If nothing in the commuting suffix shares `mv`'s face, the collapsed
range is the empty interval at the end of `moves`. -/
theorem collapsedRange_of_no_same_face (moves : List CubeMove) (mv : CubeMove)
    (h : ∀ a ∈ commutingSuffix moves mv, a.abs ≠ mv.abs) :
    Buffer.collapsedRange moves mv = (moves.length, moves.length) := by
  unfold Buffer.collapsedRange
  have hall : ∀ p ∈ (moves.enum.reverse).takeWhile
      (fun p : Nat × CubeMove => p.2.commute mv), (p.2.abs != mv.abs) = true := by
    intro p hp
    have hmem : p.2 ∈ commutingSuffix moves mv := by
      rw [← commutingScan_map_snd moves mv]
      exact List.mem_map_of_mem Prod.snd hp
    simpa [bne_iff_ne] using h _ hmem
  rw [List.dropWhile_eq_nil_iff.mpr hall]
  rfl

/-- **C3 counterexample.** `[R, L]` is reachable; its last buffered move `L`
has a different face than `R` (so the claim's run-is-empty hypothesis holds),
yet `input R` produces `[L, R, R]`, not `[R, L] ++ [R]`: the source's
`skip_while` lets the collapse reach the non-anchored `R` run deeper in the
commuting suffix. -/
theorem input_claim_anchored_run_counterexample :
    Reachable ((Buffer.new.input CubeMove.R).2.input CubeMove.L).2 ∧
    (((Buffer.new.input CubeMove.R).2.input CubeMove.L).2).moves =
      [CubeMove.R, CubeMove.L] ∧
    (CubeMove.L).abs ≠ (CubeMove.R).abs ∧
    ((((Buffer.new.input CubeMove.R).2.input CubeMove.L).2).input CubeMove.R).2.moves =
      [CubeMove.L, CubeMove.R, CubeMove.R] ∧
    [CubeMove.L, CubeMove.R, CubeMove.R] ≠
      [CubeMove.R, CubeMove.L] ++ [CubeMove.R] :=
  ⟨Reachable.input _ (Reachable.input _ Reachable.new),
    by decide, by decide, by decide, by decide⟩

/-- **C3 (amended).** If no move of the commuting suffix shares `mv`'s face
(in particular when `moves` is empty), `input(mv)` leaves all previously
buffered moves unchanged and in place and appends `mv` at the end. -/
theorem input_appends_of_no_same_face (b : Buffer) (mv : CubeMove)
    (h : ∀ a ∈ commutingSuffix b.moves mv, a.abs ≠ mv.abs) :
    (b.input mv).2.moves = b.moves ++ [mv] := by
  simp only [Buffer.input, collapsedRange_of_no_same_face b.moves mv h,
    List.drop_length, List.take_length, Nat.sub_self, List.take_nil,
    List.append_nil]
  simp

/-- Witness for C3's amended theorem at the empty buffer. -/
theorem input_appends_of_no_same_face_witness :
    (Buffer.new.input CubeMove.U).2.moves = [CubeMove.U] :=
  (input_appends_of_no_same_face Buffer.new CubeMove.U
    (by intro a ha; simp [commutingSuffix, Buffer.new] at ha)).trans rfl

/-! ### C9: the key-range invariant of `CuboardBuffer` -/

/-- The key list is a contiguous chunking starting at `s`: each range starts
where the previous one ended (the first at `s`) and is nonempty. -/
def ChunkedFrom : Nat → List (CuboardKey × Nat × Nat) → Prop
  | _, [] => True
  | s, (_, r) :: rest => r.1 = s ∧ r.1 < r.2 ∧ ChunkedFrom r.2 rest

/-- `Buffer.chunkEnd` with an explicit default for the empty list. -/
def chunkEndD (s : Nat) (l : List (CuboardKey × Nat × Nat)) : Nat :=
  ((l.getLast?).map (fun k => k.2.2)).getD s

theorem chunkEnd_eq_chunkEndD (l : List (CuboardKey × Nat × Nat)) :
    Buffer.chunkEnd l = chunkEndD 0 l := rfl

theorem chunkEndD_cons (s : Nat) (k : CuboardKey × Nat × Nat)
    (l : List (CuboardKey × Nat × Nat)) :
    chunkEndD s (k :: l) = chunkEndD k.2.2 l := by
  cases l with
  | nil => rfl
  | cons k' l' =>
    cases hgl : (k' :: l').getLast? with
    | none => exact absurd (List.getLast?_eq_none_iff.mp hgl) (by simp)
    | some g => simp [chunkEndD, List.getLast?_cons_cons, hgl]

theorem chunkedFrom_append_left (s : Nat)
    (xs ys : List (CuboardKey × Nat × Nat)) (h : ChunkedFrom s (xs ++ ys)) :
    ChunkedFrom s xs := by
  induction xs generalizing s with
  | nil => trivial
  | cons k xs ih =>
    obtain ⟨h1, h2, h3⟩ := h
    exact ⟨h1, h2, ih _ h3⟩

theorem chunked_append (s : Nat) (xs ys : List (CuboardKey × Nat × Nat))
    (hx : ChunkedFrom s xs) (hy : ChunkedFrom (chunkEndD s xs) ys) :
    ChunkedFrom s (xs ++ ys) := by
  induction xs generalizing s with
  | nil => exact hy
  | cons k xs ih =>
    obtain ⟨h1, h2, h3⟩ := hx
    rw [chunkEndD_cons] at hy
    exact ⟨h1, h2, ih _ h3 hy⟩

theorem chunked_mono (s : Nat) (l : List (CuboardKey × Nat × Nat))
    (h : ChunkedFrom s l) : ∀ k ∈ l, s ≤ k.2.1 ∧ k.2.1 < k.2.2 := by
  induction l generalizing s with
  | nil => intro k hk; simp at hk
  | cons k0 l ih =>
    obtain ⟨h1, h2, h3⟩ := h
    intro k hk
    rcases List.mem_cons.mp hk with rfl | hk'
    · omega
    · have := ih _ h3 k hk'
      omega

theorem chunked_pairwise (s : Nat) (l : List (CuboardKey × Nat × Nat))
    (h : ChunkedFrom s l) : l.Pairwise (fun x y => x.2.2 ≤ y.2.1) := by
  induction l generalizing s with
  | nil => exact List.Pairwise.nil
  | cons k0 l ih =>
    obtain ⟨h1, h2, h3⟩ := h
    exact List.pairwise_cons.mpr
      ⟨fun y hy => (chunked_mono _ _ h3 y hy).1, ih _ h3⟩

theorem chunkEndD_le (s B : Nat) (l : List (CuboardKey × Nat × Nat))
    (hs : s ≤ B) (hb : ∀ k ∈ l, k.2.2 ≤ B) : chunkEndD s l ≤ B := by
  induction l generalizing s with
  | nil => exact hs
  | cons k l ih =>
    rw [chunkEndD_cons]
    exact ih _ (hb k (by simp)) (fun k' hk' => hb k' (by simp [hk']))

theorem chunkEndD_append (s : Nat) (xs ys : List (CuboardKey × Nat × Nat)) :
    chunkEndD s (xs ++ ys) = chunkEndD (chunkEndD s xs) ys := by
  induction xs generalizing s with
  | nil => rfl
  | cons k xs ih => rw [List.cons_append, chunkEndD_cons, chunkEndD_cons, ih]

/-- The greedy parser emits a contiguous chunking starting at `s` whose
ranges all end within `s + l.length`. -/
theorem parseFrom_chunked (l : List CubeMove) (s : Nat) :
    ChunkedFrom s (parseFrom l s) ∧
      ∀ k ∈ parseFrom l s, k.2.2 ≤ s + l.length := by
  induction l, s using parseFrom.induct with
  | case1 b rest s =>
    simp [parseFrom, ChunkedFrom]
  | case2 a' b rest s hne hrow =>
    simp [parseFrom, hne, hrow, ChunkedFrom]
  | case3 a' b rest s num hne hrow ih =>
    simp only [parseFrom, if_pos rfl, if_neg hne, hrow]
    refine ⟨⟨rfl, by omega, ih.1⟩, ?_⟩
    intro k hk
    rcases List.mem_cons.mp hk with rfl | hk'
    · simp
    · have := ih.2 k hk'
      simp only [List.length_cons] at *
      omega
  | case4 a a' b rest s hne hrow =>
    simp [parseFrom, hne, hrow, ChunkedFrom]
  | case5 a a' b rest s hne num hrow ih =>
    simp only [parseFrom, if_neg hne, hrow]
    refine ⟨⟨rfl, by omega, ih.1⟩, ?_⟩
    intro k hk
    rcases List.mem_cons.mp hk with rfl | hk'
    · simp
    · have := ih.2 k hk'
      simp only [List.length_cons] at *
      omega
  | case6 a' s =>
    simp [parseFrom, ChunkedFrom]
  | case7 a a' s hne hrow =>
    simp [parseFrom, hne, hrow, ChunkedFrom]
  | case8 a a' s hne num hrow =>
    simp only [parseFrom, if_neg hne, hrow]
    refine ⟨⟨rfl, by omega, trivial⟩, ?_⟩
    intro k hk
    simp only [List.mem_singleton] at hk
    simp [hk]
  | case9 t x h2 h3 =>
    cases t with
    | nil => simp [parseFrom, ChunkedFrom]
    | cons a t' =>
      cases t' with
      | nil => simp [parseFrom, ChunkedFrom]
      | cons a2 t'' =>
        cases t'' with
        | nil => exact absurd rfl (h3 a a2)
        | cons a3 t''' => exact absurd rfl (h2 a a2 a3 t''')

theorem mem_of_getLast?_eq {α : Type} {l : List α} {g : α}
    (h : l.getLast? = some g) : g ∈ l := by
  rw [List.getLast?_eq_head?_reverse] at h
  rw [← List.mem_reverse]
  cases lr : l.reverse with
  | nil => rw [lr] at h; simp at h
  | cons y ys =>
    rw [lr] at h
    simp only [List.head?_cons, Option.some.injEq] at h
    simp [← h]

/-- The interval drained by `CuboardBuffer::input` is well-formed and lies
within the current `moves`. -/
theorem collapsedRange_bounds (moves : List CubeMove) (mv : CubeMove) :
    (Buffer.collapsedRange moves mv).1 ≤ (Buffer.collapsedRange moves mv).2 ∧
    (Buffer.collapsedRange moves mv).2 ≤ moves.length := by
  unfold Buffer.collapsedRange
  have hsubw : ((((moves.enum.reverse).takeWhile (fun p => p.2.commute mv)).dropWhile
      (fun p => p.2.abs != mv.abs)).takeWhile (fun p => p.2.abs == mv.abs)).Sublist
      moves.enum.reverse :=
    ((List.takeWhile_sublist _).trans (List.dropWhile_sublist _)).trans
      (List.takeWhile_sublist _)
  have hsub : ((((moves.enum.reverse).takeWhile (fun p => p.2.commute mv)).dropWhile
      (fun p => p.2.abs != mv.abs)).takeWhile (fun p => p.2.abs == mv.abs)).map Prod.fst
      |>.Sublist ((List.range moves.length).reverse) := by
    have := hsubw.map Prod.fst
    rwa [List.map_reverse, List.enum_map_fst] at this
  have hpair : (((((moves.enum.reverse).takeWhile (fun p => p.2.commute mv)).dropWhile
      (fun p => p.2.abs != mv.abs)).takeWhile (fun p => p.2.abs == mv.abs)).map
      Prod.fst).Pairwise (fun x y => x > y) :=
    (List.pairwise_reverse.mpr (List.pairwise_lt_range _)).sublist hsub
  have hmem : ∀ i ∈ ((((moves.enum.reverse).takeWhile (fun p => p.2.commute mv)).dropWhile
      (fun p => p.2.abs != mv.abs)).takeWhile (fun p => p.2.abs == mv.abs)).map Prod.fst,
      i < moves.length := by
    intro i hi
    have := hsub.mem hi
    rw [List.mem_reverse, List.mem_range] at this
    exact this
  cases hl : (((moves.enum.reverse).takeWhile (fun p => p.2.commute mv)).dropWhile
      (fun p => p.2.abs != mv.abs)).takeWhile (fun p => p.2.abs == mv.abs)
      |>.map Prod.fst with
  | nil => simp [Buffer.firstAndLast, hl]
  | cons x xs =>
    rw [hl] at hpair hmem
    simp only [Buffer.firstAndLast, hl]
    cases hgl : (x :: xs).getLast? with
    | none => exact absurd (List.getLast?_eq_none_iff.mp hgl) (by simp)
    | some g =>
      simp only [hgl, Option.getD_some]
      have hglmem : g ∈ x :: xs := mem_of_getLast?_eq hgl
      have hxlen : x < moves.length := hmem x (by simp)
      have hgle : g ≤ x := by
        rcases List.mem_cons.mp hglmem with rfl | hg'
        · exact Nat.le_refl g
        · exact Nat.le_of_lt ((List.pairwise_cons.mp hpair).1 g hg')
      exact ⟨by omega, by omega⟩

/-- After dropping the broken keys (those whose range end exceeds `c`,
counted from the back), the last surviving key ends at or before `c`. -/
theorem chunkEnd_take_broken (keys : List (CuboardKey × Nat × Nat)) (c : Nat) :
    Buffer.chunkEnd (keys.take (keys.length -
      ((keys.reverse).takeWhile (fun k => decide (c < k.2.2))).length)) ≤ c := by
  have hble : ((keys.reverse).takeWhile (fun k => decide (c < k.2.2))).length ≤
      keys.length := by
    have h := (List.takeWhile_sublist (l := keys.reverse)
      (fun k => decide (c < k.2.2))).length_le
    simpa using h
  have hrev : (keys.take (keys.length -
      ((keys.reverse).takeWhile (fun k => decide (c < k.2.2))).length)).reverse =
      (keys.reverse).dropWhile (fun k => decide (c < k.2.2)) := by
    rw [List.reverse_take,
      show keys.length - (keys.length -
        ((keys.reverse).takeWhile (fun k => decide (c < k.2.2))).length) =
        ((keys.reverse).takeWhile (fun k => decide (c < k.2.2))).length from by omega,
      dropWhile_eq_drop_length_takeWhile]
  unfold Buffer.chunkEnd
  rw [List.getLast?_eq_head?_reverse, hrev]
  cases hh : (keys.reverse).dropWhile (fun k => decide (c < k.2.2)) with
  | nil => simp
  | cons k tl =>
    have hk := head_dropWhile_not _ _ _ _ hh
    simp only [List.head?_cons, Option.map_some', Option.getD_some]
    simpa using hk

/-- Key-list shape produced by one `input` step: surviving keys followed by
a fresh parse of `moves'` from the surviving chunk end. -/
theorem inv_assemble (moves' : List CubeMove)
    (keys : List (CuboardKey × Nat × Nat)) (c : Nat)
    (hch : ChunkedFrom 0 keys) (hcm' : c ≤ moves'.length) :
    ChunkedFrom 0 (keys.take (keys.length -
        ((keys.reverse).takeWhile (fun k => decide (c < k.2.2))).length) ++
      parse moves' (Buffer.chunkEnd (keys.take (keys.length -
        ((keys.reverse).takeWhile (fun k => decide (c < k.2.2))).length)))) ∧
    Buffer.chunkEnd (keys.take (keys.length -
        ((keys.reverse).takeWhile (fun k => decide (c < k.2.2))).length) ++
      parse moves' (Buffer.chunkEnd (keys.take (keys.length -
        ((keys.reverse).takeWhile (fun k => decide (c < k.2.2))).length)))) ≤
      moves'.length := by
  set broken := ((keys.reverse).takeWhile (fun k => decide (c < k.2.2))).length
    with hbr
  set keys1 := keys.take (keys.length - broken) with hk1
  have hch1 : ChunkedFrom 0 keys1 := by
    have heq : keys1 ++ keys.drop (keys.length - broken) = keys :=
      List.take_append_drop _ _
    exact chunkedFrom_append_left _ _ _ (by rw [heq]; exact hch)
  have hce1 : Buffer.chunkEnd keys1 ≤ c := chunkEnd_take_broken keys c
  have hcem' : Buffer.chunkEnd keys1 ≤ moves'.length := le_trans hce1 hcm'
  have hpc := parseFrom_chunked (moves'.drop (Buffer.chunkEnd keys1))
    (Buffer.chunkEnd keys1)
  have hbound : ∀ k ∈ parse moves' (Buffer.chunkEnd keys1),
      k.2.2 ≤ moves'.length := by
    intro k hk
    have hb := hpc.2 k hk
    rw [List.length_drop] at hb
    omega
  constructor
  · exact chunked_append _ _ _ hch1 hpc.1
  · rw [chunkEnd_eq_chunkEndD, chunkEndD_append, ← chunkEnd_eq_chunkEndD]
    exact chunkEndD_le _ _ _ hcem' hbound

/-- One `input` step preserves the chunking invariant. -/
theorem inv_input_step (b : Buffer) (mv : CubeMove)
    (h : ChunkedFrom 0 b.keys) :
    ChunkedFrom 0 (b.input mv).2.keys ∧
      Buffer.chunkEnd (b.input mv).2.keys ≤ (b.input mv).2.moves.length := by
  obtain ⟨hcr12, hcr2l⟩ := collapsedRange_bounds b.moves mv
  simp only [Buffer.input]
  apply inv_assemble
  · exact h
  · simp only [List.length_append, List.length_take, List.length_drop]
    omega

/-- **C9.** In every buffer state reachable from `new` by `input`, `flush`
and `cancel`, the key ranges are contiguous from index 0 (hence sorted,
pairwise disjoint and increasing), the last range ends within `moves`, and
`remains()` is the suffix of `moves` after the last key's range end. -/
theorem buffer_key_ranges_invariant (b : Buffer) (h : Reachable b) :
    ChunkedFrom 0 b.keys ∧
    b.keys.Pairwise (fun x y => x.2.2 ≤ y.2.1) ∧
    Buffer.chunkEnd b.keys ≤ b.moves.length ∧
    b.remains = b.moves.drop (Buffer.chunkEnd b.keys) := by
  have hinv : ChunkedFrom 0 b.keys ∧ Buffer.chunkEnd b.keys ≤ b.moves.length := by
    induction h with
    | new => exact ⟨trivial, by simp [Buffer.new, Buffer.chunkEnd]⟩
    | input mv _ ih => exact inv_input_step _ mv ih.1
    | flush _ _ => exact ⟨trivial, by simp [Buffer.flush, Buffer.chunkEnd]⟩
    | cancel _ _ => exact ⟨trivial, by simp [Buffer.cancel, Buffer.chunkEnd]⟩
  exact ⟨hinv.1, chunked_pairwise _ _ hinv.1, hinv.2, rfl⟩

/-- Witness for C9 at the freshly created buffer. -/
theorem buffer_key_ranges_invariant_witness :
    ChunkedFrom 0 Buffer.new.keys ∧
    Buffer.new.keys.Pairwise (fun x y => x.2.2 ≤ y.2.1) ∧
    Buffer.chunkEnd Buffer.new.keys ≤ Buffer.new.moves.length ∧
    Buffer.new.remains = Buffer.new.moves.drop (Buffer.chunkEnd Buffer.new.keys) :=
  buffer_key_ranges_invariant Buffer.new Reachable.new

end Cuboard
